import Mathlib

/-! Verification of the terms-and-conditions resolution engine.

This file gives a shallow embedding of `termsandconditions/models.py`
(the Django models `TermsAndConditions` and `UserTermsAndConditions`
and their static resolver methods) and proves properties of the
resolvers stated by the specification.

Modelling conventions:
- timestamps are integers (`Int`), `timezone.now()` is an explicit `now`
  argument;
- the Django cache is an explicit value threaded through every resolver,
  holding entries together with their absolute expiry instants;
- database query sets are Lean lists, with Django `filter`, `exclude`,
  `order_by` and `latest` translated to list filtering and stable
  (insertion) sorting; the order of the list stands for the backend's
  row order;
- the backend-dependent sort order of boolean columns is a parameter
  `tf : Bool` (`tf = true` on backends where `True` sorts first);
- exceptions are explicit: the possibility that the acceptance-store
  lookup raises is a parameter `storeErr`, and the resolver result is an
  `Except` value, the `try/except` of the source catching exactly
  `TypeError` and `UserTermsAndConditions.DoesNotExist`.
-/

/-- One row of the `TermsAndConditions` model: a version of a policy document. -/
structure TermsAndConditions where
  id : Nat
  slug : String
  name : String
  version_number : Int
  text : Option String
  info : Option String
  date_active : Option Int
  date_created : Int
  optional : Bool
deriving DecidableEq

/-- One row of the `UserTermsAndConditions` model: the mapping between a user
and a version of the terms (an acceptance record). -/
structure UserTermsAndConditions where
  user : String
  terms : Nat
  ip_address : Option String
  date_accepted : Option Int
deriving DecidableEq

/-- A user as the resolver sees it: `get_username()`, `is_superuser`, and the
explicitly granted permissions. -/
structure DjangoUser where
  username : String
  is_superuser : Bool
  perms : List String
deriving DecidableEq

/-- Django permission check. As the source comment states, `has_perm()`
returns `True` whenever the user is a superuser, and otherwise consults the
explicitly granted permissions. -/
def DjangoUser.has_perm (u : DjangoUser) (p : String) : Bool :=
  u.is_superuser || u.perms.contains p

/-- Database state: the two model tables. -/
structure DB where
  terms : List TermsAndConditions
  userterms : List UserTermsAndConditions
deriving DecidableEq

/-- Rows of the terms table have pairwise distinct primary keys. -/
def DB.wfIds (db : DB) : Prop :=
  db.terms.Pairwise fun a b => a.id ≠ b.id

/-- Values the model code stores in the Django cache. -/
inductive CacheVal where
  | activeTerms : TermsAndConditions → CacheVal
  | activeIds : List Nat → CacheVal
  | activeList : List TermsAndConditions → CacheVal
  | notAgreed : List TermsAndConditions → CacheVal
deriving DecidableEq

/-- The Django cache: newest entry first, each entry with its expiry instant. -/
abbrev Cache := List (String × CacheVal × Int)

/-- Value of a located cache entry, provided it has not expired. -/
def entryValAt (now : Int) : Option (String × CacheVal × Int) → Option CacheVal
  | some e => if now < e.2.2 then some e.2.1 else none
  | none => none

/-- `cache.get(key)`: the newest entry under the key, provided it has not
expired. -/
def cacheGet (c : Cache) (now : Int) (k : String) : Option CacheVal :=
  entryValAt now (c.find? fun e => e.1 == k)

/-- `cache.set(key, value, ttl)`: the new entry shadows any older one. -/
def cacheSet (c : Cache) (k : String) (v : CacheVal) (expiry : Int) : Cache :=
  (k, v, expiry) :: c

def ACTIVE_TERMS_KEY_PREFIX : String := "tandc.active_terms_"

def ACTIVE_TERMS_IDS_KEY : String := "tandc.active_terms_ids"

def ACTIVE_TERMS_LIST_KEY : String := "tandc.active_terms_list"

def NOT_AGREED_KEY_PREFIX : String := "tandc.not_agreed_terms_"

def SKIP_OPTIONAL_CACHE_KEY_SUFFIX : String := "_skip_optional"

/-- The activity filter `date_active__isnull=False, date_active__lte=now`. -/
def activeAt (now : Int) (t : TermsAndConditions) : Bool :=
  match t.date_active with
  | some d => decide (d ≤ now)
  | none => false

/-- Django `latest('date_active')` on a row list: a row carrying the greatest
`date_active` (`none` exactly on the empty set, mirroring `DoesNotExist`). -/
def latestBy : List TermsAndConditions → Option TermsAndConditions
  | [] => none
  | t :: l =>
    match latestBy l with
    | none => some t
    | some m => if m.date_active.getD 0 < t.date_active.getD 0 then some t else some m

/-- Python dictionary assignment `d[k] = v`: update in place if the key is
present, append otherwise. -/
def dictInsert (d : List (String × Nat)) (k : String) (v : Nat) :
    List (String × Nat) :=
  if d.any fun p => p.1 == k then d.map fun p => if p.1 == k then (k, v) else p
  else d ++ [(k, v)]

/-- Lexicographic (alphabetical ascending) string comparison, stated on the
character lists so that it is kernel-computable. -/
def strLE (a b : String) : Prop :=
  a.data ≤ b.data

instance : DecidableRel strLE := fun a b =>
  inferInstanceAs (Decidable (a.data ≤ b.data))

/-- Ordering used by `order_by('date_active')` (nulls are filtered out before
this sort is ever applied). -/
def dateLE (a b : TermsAndConditions) : Prop :=
  a.date_active.getD 0 ≤ b.date_active.getD 0

/-- Ordering used by `order_by('slug')`. -/
def slugLE (a b : TermsAndConditions) : Prop :=
  strLE a.slug b.slug

/-- Ordering used by `sorted(dict.items(), key=lambda t: t[0])`. -/
def keyLE (p q : String × Nat) : Prop :=
  strLE p.1 q.1

instance : DecidableRel dateLE := fun a b =>
  inferInstanceAs (Decidable (a.date_active.getD 0 ≤ b.date_active.getD 0))

instance : DecidableRel slugLE := fun a b =>
  inferInstanceAs (Decidable (strLE a.slug b.slug))

instance : DecidableRel keyLE := fun p q =>
  inferInstanceAs (Decidable (strLE p.1 q.1))

instance : IsTotal TermsAndConditions dateLE :=
  ⟨fun a b => le_total (a.date_active.getD 0) (b.date_active.getD 0)⟩

instance : IsTrans TermsAndConditions dateLE :=
  ⟨fun _ _ _ hab hbc => le_trans hab hbc⟩

instance : IsTotal TermsAndConditions slugLE :=
  ⟨fun a b => le_total a.slug.data b.slug.data⟩

instance : IsTrans TermsAndConditions slugLE :=
  ⟨fun _ _ _ hab hbc => le_trans hab hbc⟩

instance : IsTotal (String × Nat) keyLE :=
  ⟨fun p q => le_total p.1.data q.1.data⟩

instance : IsTrans (String × Nat) keyLE :=
  ⟨fun _ _ _ hab hbc => le_trans hab hbc⟩

/-- Exceptions relevant to the resolver: the two exception classes named by
the `except` clause of the source, and a stand-in for any other exception a
store lookup can raise (such as a database `OperationalError` on transient
unavailability). -/
inductive PyExc where
  | typeError
  | doesNotExist
  | operationalError
deriving DecidableEq

/-- Whether the `except (TypeError, UserTermsAndConditions.DoesNotExist)`
clause of the source catches the exception. -/
def caughtExc : PyExc → Bool
  | .typeError => true
  | .doesNotExist => true
  | .operationalError => false

/-- Sort key a backend assigns to a boolean column: on a backend where `True`
sorts first (`tf = true`) the key of `true` is `0`, otherwise the key of
`false` is `0`. -/
def boolKey (tf b : Bool) : Nat :=
  if tf == b then 0 else 1

/-- The ordering realised by `order_by('optional', 'slug')` on a backend with
boolean sort behaviour `tf`; `order_by('-optional', 'slug')` is `termLE !tf`. -/
def termLE (tf : Bool) (a b : TermsAndConditions) : Prop :=
  boolKey tf a.optional < boolKey tf b.optional ∨
    (boolKey tf a.optional = boolKey tf b.optional ∧ strLE a.slug b.slug)

instance (tf : Bool) : DecidableRel (termLE tf) := fun a b =>
  inferInstanceAs (Decidable (_ ∨ _))

instance (tf : Bool) : IsTotal TermsAndConditions (termLE tf) := by
  constructor
  intro a b
  rcases Nat.lt_trichotomy (boolKey tf a.optional) (boolKey tf b.optional) with h | h | h
  · exact Or.inl (Or.inl h)
  · rcases le_total a.slug.data b.slug.data with hs | hs
    · exact Or.inl (Or.inr ⟨h, hs⟩)
    · exact Or.inr (Or.inr ⟨h.symm, hs⟩)
  · exact Or.inr (Or.inl h)

instance (tf : Bool) : IsTrans TermsAndConditions (termLE tf) := by
  constructor
  intro a b c hab hbc
  rcases hab with hab | ⟨hab, hab'⟩
  · rcases hbc with hbc | ⟨hbc, _⟩
    · exact Or.inl (lt_trans hab hbc)
    · exact Or.inl (hbc ▸ hab)
  · rcases hbc with hbc | ⟨hbc, hbc'⟩
    · exact Or.inl (hab ▸ hbc)
    · exact Or.inr ⟨hab.trans hbc, le_trans hab' hbc'⟩

/-- The test `not_agreed_terms and not_agreed_terms.first().optional`: the
query set is non-empty and its first row is optional. -/
def firstOptional : List TermsAndConditions → Bool
  | [] => false
  | f :: _ => f.optional

/-- The ordering step of the resolver: sort by `('optional', 'slug')`; if the
first element of the realised order is optional, re-sort by
`('-optional', 'slug')` (the workaround for backends sorting `True` first). -/
def orderedResult (tf : Bool) (l : List TermsAndConditions) :
    List TermsAndConditions :=
  if firstOptional (l.insertionSort (termLE tf)) then l.insertionSort (termLE !tf)
  else l.insertionSort (termLE tf)

/-- The exemption test of the resolver: a permission name is configured, the
user passes `has_perm`, and the user is not a superuser. -/
def exemptCheck (perm : Option String) (u : DjangoUser) : Bool :=
  match perm with
  | some p => u.has_perm p && !u.is_superuser
  | none => false

/-- The per-user cache key of the resolver result, carrying the
`skip_optional` suffix. -/
def notAgreedKey (u : DjangoUser) (skip_optional : Bool) : String :=
  NOT_AGREED_KEY_PREFIX ++ u.username ++
    (if skip_optional then SKIP_OPTIONAL_CACHE_KEY_SUFFIX else "")

namespace TermsAndConditions

/-- `TermsAndConditions.get_active(slug)`: the cached latest active version of
the slug; on a cache miss, the qualifying row with the greatest `date_active`
is selected and cached, and `None` is returned when no row qualifies. -/
def get_active (ttl : Int) (c : Cache) (db : DB) (slug : String) (now : Int) :
    Option TermsAndConditions × Cache :=
  match cacheGet c now (ACTIVE_TERMS_KEY_PREFIX ++ slug) with
  | some (.activeTerms t) => (some t, c)
  | _ =>
    match latestBy (db.terms.filter fun t => activeAt now t && t.slug == slug) with
    | some t =>
      (some t, cacheSet c (ACTIVE_TERMS_KEY_PREFIX ++ slug) (.activeTerms t) (now + ttl))
    | none => (none, c)

/-- `TermsAndConditions.get_active_terms_ids()`: walk the active rows in
ascending `date_active` order filling a slug-keyed dictionary (so the latest
row per slug wins), sort the dictionary by slug, and return the ids. -/
def get_active_terms_ids (ttl : Int) (c : Cache) (db : DB) (now : Int) :
    List Nat × Cache :=
  match cacheGet c now ACTIVE_TERMS_IDS_KEY with
  | some (.activeIds ids) => (ids, c)
  | _ =>
    let active_terms_set := (db.terms.filter (activeAt now)).insertionSort dateLE
    let active_terms_dict := active_terms_set.foldl (fun d t => dictInsert d t.slug t.id) []
    let ids := (active_terms_dict.insertionSort keyLE).map fun p => p.2
    (ids, cacheSet c ACTIVE_TERMS_IDS_KEY (.activeIds ids) (now + ttl))

/-- `TermsAndConditions.get_active_terms_list()`: the rows whose ids are in
`get_active_terms_ids()`, ordered by slug. -/
def get_active_terms_list (ttl : Int) (c : Cache) (db : DB) (now : Int) :
    List TermsAndConditions × Cache :=
  match cacheGet c now ACTIVE_TERMS_LIST_KEY with
  | some (.activeList l) => (l, c)
  | _ =>
    let p := get_active_terms_ids ttl c db now
    let l := (db.terms.filter fun t => p.1.contains t.id).insertionSort slugLE
    (l, cacheSet p.2 ACTIVE_TERMS_LIST_KEY (.activeList l) (now + ttl))

/-- The computation inside the `try` block of
`get_active_terms_not_agreed_to`, starting from the active list `al`:
exclude rows with an accepted record of the user, exclude optional rows
(all of them when `skip_optional`, otherwise those with any record of the
user), then apply the ordering step. -/
def notAgreedCompute (tf : Bool) (db : DB) (al : List TermsAndConditions)
    (u : DjangoUser) (skip_optional : Bool) : List TermsAndConditions :=
  let accepted := db.userterms.filter fun ut =>
    ut.user == u.username && ut.date_accepted.isSome
  let t1 := al.filter fun t => !(accepted.any fun ut => ut.terms == t.id)
  let seen := db.userterms.filter fun ut => ut.user == u.username
  let t2 := t1.filter fun t =>
    !(t.optional && (skip_optional || seen.any fun ut => ut.terms == t.id))
  orderedResult tf t2

/-- `TermsAndConditions.get_active_terms_not_agreed_to(user, skip_optional)`:
exemption check first (before the cache), then per-user cache lookup under a
key carrying the `skip_optional` suffix, then the guarded computation whose
store exceptions are caught by `except (TypeError, DoesNotExist)` and turned
into an empty list. -/
def get_active_terms_not_agreed_to (excludePerm : Option String) (ttl : Int)
    (tf : Bool) (c : Cache) (db : DB) (storeErr : Option PyExc)
    (u : DjangoUser) (skip_optional : Bool) (now : Int) :
    Except PyExc (List TermsAndConditions × Cache) :=
  if exemptCheck excludePerm u then .ok ([], c)
  else
    match cacheGet c now (notAgreedKey u skip_optional) with
    | some (.notAgreed v) => .ok (v, c)
    | _ =>
      match storeErr with
      | some e => if caughtExc e then .ok ([], c) else .error e
      | none =>
        let p := get_active_terms_list ttl c db now
        let res := notAgreedCompute tf db p.1 u skip_optional
        .ok (res, cacheSet p.2 (notAgreedKey u skip_optional) (.notAgreed res) (now + ttl))

end TermsAndConditions

/-- The list a resolver call returned (empty when the call raised). -/
def okList : Except PyExc (List TermsAndConditions × Cache) →
    List TermsAndConditions
  | .ok p => p.1
  | .error _ => []

/-- The cache state after a resolver call (empty when the call raised, in
which case no cache write happened and the runs below start from empty). -/
def okCache : Except PyExc (List TermsAndConditions × Cache) → Cache
  | .ok p => p.2
  | .error _ => []

/-- The exception a resolver call propagated, if any. -/
def errValue : Except PyExc (List TermsAndConditions × Cache) → Option PyExc
  | .ok _ => none
  | .error e => some e

/-- Whether the store holds any record of the user about the terms row
(seen, whether or not accepted). -/
def hasUserRecord (db : DB) (u : DjangoUser) (t : TermsAndConditions) : Bool :=
  db.userterms.any fun ut => ut.user == u.username && ut.terms == t.id

/-- Whether the store holds an accepted record (`date_accepted` non-null) of
the user about the terms row. -/
def hasAcceptedRecord (db : DB) (u : DjangoUser) (t : TermsAndConditions) : Bool :=
  db.userterms.any fun ut =>
    ut.user == u.username && ut.terms == t.id && ut.date_accepted.isSome

/-- The validation failure `UserTermsAndConditions.clean` raises. -/
inductive ValidationError where
  | mandatoryTermsNeedDateAccepted
deriving DecidableEq

/-- `UserTermsAndConditions.clean`: reject a record whose `date_accepted` is
null while the referenced terms are mandatory. The referenced
`TermsAndConditions` row is passed explicitly (it is `self.terms` in the
source). -/
def UserTermsAndConditions.clean (self : UserTermsAndConditions)
    (terms : TermsAndConditions) : Except ValidationError Unit :=
  if self.date_accepted.isNone && !terms.optional then
    .error .mandatoryTermsNeedDateAccepted
  else .ok ()

/-- Modelled from the spec: the write boundary (the admin/view save path that
persists a `UserTermsAndConditions` record) is not part of `src/`; per the
spec, a write is validated synchronously via `clean` and the record reaches
storage only when validation passes. -/
def validatedSave (db : DB) (terms : TermsAndConditions)
    (ut : UserTermsAndConditions) : Except ValidationError DB :=
  match ut.clean terms with
  | .error e => .error e
  | .ok _ => .ok { db with userterms := ut :: db.userterms }

/-- Every stored record referencing a mandatory terms row has a non-null
`date_accepted`. -/
def mandatoryAccepted (db : DB) : Prop :=
  ∀ ut ∈ db.userterms, ∀ t ∈ db.terms,
    ut.terms = t.id → t.optional = false → ut.date_accepted.isSome = true

/-- Construction of a `UserTermsAndConditions` record without an explicit
`date_accepted` value: the field declaration carries
`default=timezone.now`, so the field defaults to the current time. -/
def UserTermsAndConditions.mkDefault (user : String) (terms : Nat)
    (ip_address : Option String) (now : Int) : UserTermsAndConditions :=
  ⟨user, terms, ip_address, some now⟩

/-- Result pairs ordered the way the spec requires: no optional row before a
mandatory one, and slugs ascending inside each group. -/
def mandBeforeOpt (a b : TermsAndConditions) : Prop :=
  (a.optional = true → b.optional = true) ∧
    (a.optional = b.optional → strLE a.slug b.slug)

/-! Concrete fixtures used by witnesses and counterexamples. -/

/-- Fixture: an active mandatory terms row. -/
def wSite : TermsAndConditions :=
  ⟨1, "b", "site", 200, none, none, some 0, 0, false⟩

/-- Fixture: an active optional terms row. -/
def wOpt : TermsAndConditions :=
  ⟨2, "a", "opt", 100, none, none, some 0, 0, true⟩

/-- Fixture: a draft terms row (`date_active` null). -/
def wDraft : TermsAndConditions :=
  ⟨3, "c", "draft", 100, none, none, none, 0, false⟩

/-- Fixture: a terms row activated only in the future. -/
def wFuture : TermsAndConditions :=
  ⟨4, "d", "future", 100, none, none, some 100, 0, false⟩

/-- Fixture: an older active version of the `wSite` slug. -/
def wOld : TermsAndConditions :=
  ⟨5, "b", "old-site", 100, none, none, some (-1), 0, false⟩

/-- Fixture: store with the five terms rows and no acceptance records. -/
def wDb : DB :=
  ⟨[wSite, wOpt, wDraft, wFuture, wOld], []⟩

/-- Fixture: store where the user accepted the mandatory row and saw the
optional row without accepting it. -/
def wDbRecords : DB :=
  ⟨[wSite, wOpt, wDraft, wFuture, wOld],
    [⟨"u", 1, none, some 1⟩, ⟨"u", 2, none, none⟩]⟩

/-- Fixture: an ordinary user with no grants. -/
def wUser : DjangoUser :=
  ⟨"u", false, []⟩

/-- Fixture: a superuser holding the exemption permission explicitly. -/
def wSuper : DjangoUser :=
  ⟨"s", true, ["x"]⟩

/-- Fixture: a non-superuser holding the exemption permission explicitly. -/
def wGrant : DjangoUser :=
  ⟨"g", false, ["x"]⟩

/-- Fixture: a superuser without the explicit grant. -/
def wSuperNoGrant : DjangoUser :=
  ⟨"t", true, []⟩

/-- Reading a key of the slug-keyed dictionary built by
`get_active_terms_ids`. -/
def dictLookup (d : List (String × Nat)) (k : String) : Option Nat :=
  (d.find? fun p => p.1 == k).map fun p => p.2

/-! Helper lemmas. -/

theorem boolKey_le_one (tf b : Bool) : boolKey tf b ≤ 1 := by
  unfold boolKey; split <;> simp

theorem boolKey_inj {tf a b : Bool} (h : boolKey tf a = boolKey tf b) : a = b := by
  cases tf <;> cases a <;> cases b <;> simp_all [boolKey]

theorem boolKey_eq_one {tf b : Bool} : boolKey tf b = 1 ↔ b = !tf := by
  cases tf <;> cases b <;> simp [boolKey]

theorem termLE_false_mandBeforeOpt {a b : TermsAndConditions}
    (h : termLE false a b) : mandBeforeOpt a b := by
  rcases h with h | ⟨h, hs⟩
  · cases ha : a.optional <;> cases hb : b.optional <;>
      simp_all [boolKey, mandBeforeOpt]
  · have hfl := boolKey_inj h
    exact ⟨fun hx => hfl ▸ hx, fun _ => hs⟩

theorem pairwise_key_all {tf : Bool} {f : TermsAndConditions}
    {rest : List TermsAndConditions}
    (hs : (f :: rest).Pairwise (termLE tf)) (hf : boolKey tf f.optional = 1) :
    ∀ x ∈ f :: rest, boolKey tf x.optional = 1 := by
  intro x hx
  rcases List.mem_cons.mp hx with rfl | hx
  · exact hf
  · have h := (List.pairwise_cons.mp hs).1 x hx
    have hle := boolKey_le_one tf x.optional
    rcases h with h | ⟨h, _⟩ <;> omega

theorem pairwise_same_flag {tf : Bool} {l : List TermsAndConditions} (c : Bool)
    (hs : l.Pairwise (termLE tf)) (hall : ∀ x ∈ l, x.optional = c) :
    l.Pairwise mandBeforeOpt := by
  refine hs.imp_of_mem ?_
  intro a b ha hb hab
  have hfl : a.optional = b.optional := (hall a ha).trans (hall b hb).symm
  rcases hab with h | ⟨_, hs'⟩
  · rw [hfl] at h; exact absurd h (lt_irrefl _)
  · exact ⟨fun hx => hfl ▸ hx, fun _ => hs'⟩

theorem orderedResult_pairwise (tf : Bool) (l : List TermsAndConditions) :
    (orderedResult tf l).Pairwise mandBeforeOpt := by
  unfold orderedResult
  by_cases hfo : firstOptional (l.insertionSort (termLE tf)) = true
  · rw [if_pos hfo]
    have hs2 : (l.insertionSort (termLE !tf)).Pairwise (termLE !tf) :=
      List.sorted_insertionSort (termLE !tf) l
    cases tf with
    | true =>
      refine hs2.imp_of_mem ?_
      intro a b _ _ hab
      exact termLE_false_mandBeforeOpt hab
    | false =>
      cases hsort : l.insertionSort (termLE false) with
      | nil => rw [hsort] at hfo; cases hfo
      | cons f rest =>
        rw [hsort] at hfo
        have hf : f.optional = true := hfo
        have hs : (f :: rest).Pairwise (termLE false) := by
          rw [← hsort]; exact List.sorted_insertionSort (termLE false) l
        refine pairwise_same_flag true hs2 ?_
        intro x hx
        have hx' : x ∈ f :: rest := by
          rw [← hsort, List.mem_insertionSort]
          exact (List.mem_insertionSort (termLE !false)).mp hx
        have := pairwise_key_all hs (by simp [boolKey, hf]) x hx'
        simpa [boolKey_eq_one] using this
  · rw [if_neg hfo]
    have hs : (l.insertionSort (termLE tf)).Pairwise (termLE tf) :=
      List.sorted_insertionSort (termLE tf) l
    cases tf with
    | false => exact hs.imp termLE_false_mandBeforeOpt
    | true =>
      cases hsort : l.insertionSort (termLE true) with
      | nil => simp [hsort]
      | cons f rest =>
        rw [hsort] at hfo hs
        have hf : f.optional = false := by
          cases hff : f.optional
          · rfl
          · exact absurd hff hfo
        refine pairwise_same_flag false hs ?_
        intro x hx
        have := pairwise_key_all hs (by simp [boolKey, hf]) x hx
        simpa [boolKey_eq_one] using this

theorem cacheGet_mem {c : Cache} {now : Int} {k : String} {v : CacheVal}
    (h : cacheGet c now k = some v) : ∃ e ∈ c, e.2.1 = v := by
  unfold cacheGet at h
  cases hf : c.find? (fun e => e.1 == k) with
  | none => rw [hf] at h; cases h
  | some e =>
    rw [hf] at h
    simp only [entryValAt] at h
    by_cases ht : now < e.2.2
    · rw [if_pos ht] at h
      exact ⟨e, List.mem_of_find?_eq_some hf, Option.some.inj h⟩
    · rw [if_neg ht] at h; cases h

/-- C2: every sequence returned by `get_active_terms_not_agreed_to` places all
mandatory policies before all optional ones, with slugs ascending within each
group, for every user, every `skip_optional` value and every backend boolean
sort behaviour, provided every resolver result already cached satisfies the
same ordering (in particular for a fresh cache). -/
theorem getOutstanding_mandatory_before_optional (perm : Option String)
    (ttl : Int) (tf : Bool) (c : Cache) (db : DB) (err : Option PyExc)
    (u : DjangoUser) (skip : Bool) (now : Int)
    (hwf : ∀ e ∈ c, ∀ l, e.2.1 = CacheVal.notAgreed l → l.Pairwise mandBeforeOpt) :
    (okList (TermsAndConditions.get_active_terms_not_agreed_to perm ttl tf c db
      err u skip now)).Pairwise mandBeforeOpt := by
  unfold TermsAndConditions.get_active_terms_not_agreed_to
  split
  · exact List.Pairwise.nil
  · split
    · next v heq =>
      obtain ⟨e, hmem, hev⟩ := cacheGet_mem heq
      simp only [okList]
      exact hwf e hmem v hev
    · next =>
      split
      · next e =>
        split
        · exact List.Pairwise.nil
        · exact List.Pairwise.nil
      · simp only [okList, TermsAndConditions.notAgreedCompute]
        exact orderedResult_pairwise tf _

/-- Witness for C2: the ordering theorem applied to the concrete fixture store
with a fresh cache, on a backend that sorts `True` first. -/
theorem getOutstanding_mandatory_before_optional_witness :
    (∀ e ∈ ([] : Cache), ∀ l, e.2.1 = CacheVal.notAgreed l →
      l.Pairwise mandBeforeOpt) ∧
    (okList (TermsAndConditions.get_active_terms_not_agreed_to none 30 true []
      wDb none wUser false 10)).Pairwise mandBeforeOpt :=
  ⟨by simp, getOutstanding_mandatory_before_optional none 30 true [] wDb none
    wUser false 10 (by simp)⟩

theorem cacheGet_nil (now : Int) (k : String) : cacheGet [] now k = none := rfl

theorem mem_orderedResult {tf : Bool} {l : List TermsAndConditions}
    {t : TermsAndConditions} : t ∈ orderedResult tf l ↔ t ∈ l := by
  unfold orderedResult
  split <;> exact List.mem_insertionSort _

theorem hasAcceptedRecord_iff {db : DB} {u : DjangoUser} {t : TermsAndConditions} :
    hasAcceptedRecord db u t = true ↔
      ∃ ut ∈ db.userterms, ut.user = u.username ∧ ut.terms = t.id ∧
        ut.date_accepted.isSome = true := by
  simp only [hasAcceptedRecord, List.any_eq_true, Bool.and_eq_true, beq_iff_eq]
  tauto

theorem hasUserRecord_iff {db : DB} {u : DjangoUser} {t : TermsAndConditions} :
    hasUserRecord db u t = true ↔
      ∃ ut ∈ db.userterms, ut.user = u.username ∧ ut.terms = t.id := by
  simp only [hasUserRecord, List.any_eq_true, Bool.and_eq_true, beq_iff_eq]

theorem accepted_any_iff {db : DB} {u : DjangoUser} {t : TermsAndConditions} :
    ((db.userterms.filter fun ut => ut.user == u.username && ut.date_accepted.isSome).any
      fun ut => ut.terms == t.id) = true ↔
      ∃ ut ∈ db.userterms, ut.user = u.username ∧ ut.terms = t.id ∧
        ut.date_accepted.isSome = true := by
  simp only [List.any_eq_true, List.mem_filter, Bool.and_eq_true, beq_iff_eq]
  tauto

theorem seen_any_iff {db : DB} {u : DjangoUser} {t : TermsAndConditions} :
    ((db.userterms.filter fun ut => ut.user == u.username).any
      fun ut => ut.terms == t.id) = true ↔
      ∃ ut ∈ db.userterms, ut.user = u.username ∧ ut.terms = t.id := by
  simp only [List.any_eq_true, List.mem_filter, beq_iff_eq]
  tauto

/-- Membership in the computed (cache-miss) resolver result: a row is in the
result exactly when it is in the active list, the user has no accepted record
for it, and, if the row is optional, `skip_optional` is off and the user has
no record at all for it. -/
theorem mem_notAgreedCompute {tf : Bool} {db : DB} {al : List TermsAndConditions}
    {u : DjangoUser} {skip : Bool} {t : TermsAndConditions} :
    t ∈ TermsAndConditions.notAgreedCompute tf db al u skip ↔
      t ∈ al ∧ hasAcceptedRecord db u t = false ∧
      (t.optional = true → skip = false ∧ hasUserRecord db u t = false) := by
  unfold TermsAndConditions.notAgreedCompute
  rw [mem_orderedResult, List.mem_filter, List.mem_filter]
  constructor
  · rintro ⟨⟨hal, hacc⟩, hopt⟩
    refine ⟨hal, ?_, ?_⟩
    · rw [Bool.not_eq_true'] at hacc
      rw [Bool.eq_false_iff]
      intro hx
      have h1 := accepted_any_iff.mpr (hasAcceptedRecord_iff.mp hx)
      rw [h1] at hacc
      simp at hacc
    · intro hto
      rw [Bool.not_eq_true', hto, Bool.true_and, Bool.or_eq_false_iff] at hopt
      refine ⟨hopt.1, ?_⟩
      rw [Bool.eq_false_iff]
      intro hx
      have h1 := seen_any_iff.mpr (hasUserRecord_iff.mp hx)
      have h2 := hopt.2
      rw [h1] at h2
      simp at h2
  · rintro ⟨hal, hacc, hopt⟩
    refine ⟨⟨hal, ?_⟩, ?_⟩
    · rw [Bool.not_eq_true', Bool.eq_false_iff]
      intro hx
      have h1 := hasAcceptedRecord_iff.mpr (accepted_any_iff.mp hx)
      rw [h1] at hacc
      simp at hacc
    · rw [Bool.not_eq_true']
      cases hto : t.optional with
      | false => rfl
      | true =>
        obtain ⟨hskip, hrec⟩ := hopt hto
        rw [hskip, Bool.true_and, Bool.false_or, Bool.eq_false_iff]
        intro hx
        have h1 := hasUserRecord_iff.mpr (seen_any_iff.mp hx)
        rw [h1] at hrec
        simp at hrec

/-- C4: starting from a fresh cache, `get_active_terms_not_agreed_to` never
includes a policy for which the user has an acceptance record with non-null
`date_accepted`, for every user, every `skip_optional` value, every backend
boolean sort behaviour and every store-error situation. -/
theorem getOutstanding_excludes_accepted (perm : Option String) (ttl : Int)
    (tf : Bool) (db : DB) (err : Option PyExc) (u : DjangoUser) (skip : Bool)
    (now : Int) :
    ((okList (TermsAndConditions.get_active_terms_not_agreed_to perm ttl tf []
      db err u skip now)).all fun t => !(hasAcceptedRecord db u t)) = true := by
  rw [List.all_eq_true]
  intro t ht
  unfold TermsAndConditions.get_active_terms_not_agreed_to at ht
  split at ht
  · simp [okList] at ht
  · split at ht
    · next v heq => rw [cacheGet_nil] at heq; cases heq
    · split at ht
      · next e =>
        split at ht
        · simp [okList] at ht
        · simp [okList] at ht
      · simp only [okList] at ht
        rw [mem_notAgreedCompute] at ht
        rw [ht.2.1]
        rfl

/-- C3: starting from a fresh cache and for a non-exempt user with no store
error, the membership of optional policies in the resolver result is governed
by `skip_optional`: with `skip_optional` on, no optional policy appears at
all; with it off, an active optional policy with no record of the user
appears, and any optional policy in the result has no record of the user
(seen records, accepted or not, exclude it). -/
theorem getOutstanding_optional_membership (perm : Option String) (ttl : Int)
    (tf : Bool) (db : DB) (err : Option PyExc) (u : DjangoUser) (now : Int)
    (hex : exemptCheck perm u = false) (herr : err = none) :
    (((okList (TermsAndConditions.get_active_terms_not_agreed_to perm ttl tf []
        db err u true now)).all fun t => !t.optional) = true) ∧
    (∀ t ∈ (TermsAndConditions.get_active_terms_list ttl [] db now).1,
      t.optional = true → hasUserRecord db u t = false →
      t ∈ okList (TermsAndConditions.get_active_terms_not_agreed_to perm ttl tf []
        db err u false now)) ∧
    (∀ t ∈ okList (TermsAndConditions.get_active_terms_not_agreed_to perm ttl tf []
        db err u false now),
      t.optional = true → hasUserRecord db u t = false) := by
  refine ⟨?_, ?_, ?_⟩
  · rw [List.all_eq_true]
    intro t ht
    unfold TermsAndConditions.get_active_terms_not_agreed_to at ht
    split at ht
    · simp [okList] at ht
    · split at ht
      · next v heq => rw [cacheGet_nil] at heq; cases heq
      · split at ht
        · next e =>
          split at ht
          · simp [okList] at ht
          · simp [okList] at ht
        · simp only [okList] at ht
          rw [mem_notAgreedCompute] at ht
          cases hto : t.optional with
          | false => rfl
          | true => exact absurd (ht.2.2 hto).1 (by simp)
  · intro t hal hto hrec
    subst herr
    unfold TermsAndConditions.get_active_terms_not_agreed_to
    rw [hex]
    simp only [Bool.false_eq_true, if_false, cacheGet_nil, okList]
    rw [mem_notAgreedCompute]
    refine ⟨hal, ?_, fun _ => ⟨rfl, hrec⟩⟩
    rw [Bool.eq_false_iff]
    intro hx
    obtain ⟨ut, hm, h1, h2, _⟩ := hasAcceptedRecord_iff.mp hx
    have : hasUserRecord db u t = true := hasUserRecord_iff.mpr ⟨ut, hm, h1, h2⟩
    rw [this] at hrec
    simp at hrec
  · intro t ht hto
    unfold TermsAndConditions.get_active_terms_not_agreed_to at ht
    split at ht
    · simp [okList] at ht
    · split at ht
      · next v heq => rw [cacheGet_nil] at heq; cases heq
      · split at ht
        · next e =>
          split at ht
          · simp [okList] at ht
          · simp [okList] at ht
        · simp only [okList] at ht
          rw [mem_notAgreedCompute] at ht
          exact (ht.2.2 hto).2

/-- Witness for C3: the optional-membership theorem applied to the fixture
store (optional row seen but unaccepted), picking the closed
`skip_optional = true` part. -/
theorem getOutstanding_optional_membership_witness :
    exemptCheck none wUser = false ∧ (none : Option PyExc) = none ∧
    ((okList (TermsAndConditions.get_active_terms_not_agreed_to none 30 false []
      wDbRecords none wUser true 10)).all fun t => !t.optional) = true :=
  ⟨rfl, rfl,
    (getOutstanding_optional_membership none 30 false wDbRecords none wUser 10
      rfl rfl).1⟩

/-- C1 (counterexample): a superuser holding the configured exemption
permission through an explicit grant does not get an empty result — the
source requires `has_perm` and `not is_superuser`, so superusers never pass
the exemption check. -/
theorem exemption_superuser_explicit_grant_cex :
    wSuper.perms.contains "x" = true ∧
    okList (TermsAndConditions.get_active_terms_not_agreed_to (some "x") 30
      false [] wDb none wSuper false 10) ≠ [] := by decide

/-- C1 (amended): with an exemption permission configured, a non-superuser
holding the permission through an explicit grant gets an empty sequence
immediately with the cache untouched; a superuser never satisfies the
exemption check, behaving exactly as if no exemption permission were
configured. -/
theorem exemption_explicit_grant_non_superuser (p : String) (ttl : Int)
    (tf : Bool) (c : Cache) (db : DB) (err : Option PyExc) (u : DjangoUser)
    (skip : Bool) (now : Int) :
    (u.is_superuser = false → u.perms.contains p = true →
      TermsAndConditions.get_active_terms_not_agreed_to (some p) ttl tf c db err
        u skip now = .ok ([], c)) ∧
    (u.is_superuser = true →
      TermsAndConditions.get_active_terms_not_agreed_to (some p) ttl tf c db err
        u skip now =
      TermsAndConditions.get_active_terms_not_agreed_to none ttl tf c db err
        u skip now) := by
  constructor
  · intro h1 h2
    unfold TermsAndConditions.get_active_terms_not_agreed_to
    have h2' : p ∈ u.perms := by simpa using h2
    have : exemptCheck (some p) u = true := by
      simp [exemptCheck, DjangoUser.has_perm, h1, h2']
    rw [this]
    rfl
  · intro h1
    have he1 : exemptCheck (some p) u = false := by
      simp [exemptCheck, DjangoUser.has_perm, h1]
    have he2 : exemptCheck none u = false := rfl
    unfold TermsAndConditions.get_active_terms_not_agreed_to
    rw [he1, he2]

/-- Witness for the amended C1: the non-superuser fixture holding the grant
gets an empty result with the cache untouched. -/
theorem exemption_explicit_grant_non_superuser_witness :
    wGrant.is_superuser = false ∧ wGrant.perms.contains "x" = true ∧
    TermsAndConditions.get_active_terms_not_agreed_to (some "x") 30 false []
      wDb none wGrant false 10 = .ok ([], []) :=
  ⟨rfl, by decide,
    (exemption_explicit_grant_non_superuser "x" 30 false [] wDb none wGrant
      false 10).1 rfl (by decide)⟩

/-- C7 (counterexample): a store failure other than `TypeError` or
`DoesNotExist` — here a database `OperationalError` standing for transient
store unavailability — propagates out of the resolver instead of being
absorbed into an empty result. -/
theorem storeError_uncaught_propagates_cex :
    errValue (TermsAndConditions.get_active_terms_not_agreed_to none 30 false []
      wDb (some .operationalError) wUser false 10) = some .operationalError := by
  decide

/-- C7 (amended): on a fresh cache, store failures raising `TypeError` or
`UserTermsAndConditions.DoesNotExist` are absorbed into an empty result with
no cache write; any other store exception propagates to a non-exempt caller. -/
theorem storeError_handling (perm : Option String) (ttl : Int) (tf : Bool)
    (db : DB) (u : DjangoUser) (skip : Bool) (now : Int) (e : PyExc) :
    (caughtExc e = true →
      TermsAndConditions.get_active_terms_not_agreed_to perm ttl tf [] db
        (some e) u skip now = .ok ([], [])) ∧
    (caughtExc e = false → exemptCheck perm u = false →
      TermsAndConditions.get_active_terms_not_agreed_to perm ttl tf [] db
        (some e) u skip now = .error e) := by
  constructor
  · intro hc
    unfold TermsAndConditions.get_active_terms_not_agreed_to
    split
    · rfl
    · simp [cacheGet_nil, hc]
  · intro hc hex
    unfold TermsAndConditions.get_active_terms_not_agreed_to
    rw [hex]
    simp [cacheGet_nil, hc]

/-- Witness for the amended C7: a `TypeError` during the lookup is absorbed
into an empty result for the fixture store. -/
theorem storeError_handling_witness :
    caughtExc PyExc.typeError = true ∧
    TermsAndConditions.get_active_terms_not_agreed_to none 30 false [] wDb
      (some .typeError) wUser false 10 = .ok ([], []) :=
  ⟨rfl, (storeError_handling none 30 false wDb wUser false 10 .typeError).1 rfl⟩

theorem activeAt_iff {now : Int} {t : TermsAndConditions} :
    activeAt now t = true ↔ ∃ d, t.date_active = some d ∧ d ≤ now := by
  unfold activeAt
  cases h : t.date_active with
  | none => simp
  | some d => simp

theorem latestBy_ne_none : ∀ {a : TermsAndConditions} {l : List TermsAndConditions},
    latestBy (a :: l) ≠ none := by
  intro a l h
  cases hl : latestBy l with
  | none =>
    simp only [latestBy, hl] at h
    cases h
  | some m =>
    simp only [latestBy, hl] at h
    split at h <;> cases h

theorem latestBy_mem : ∀ {l : List TermsAndConditions} {t : TermsAndConditions},
    latestBy l = some t → t ∈ l := by
  intro l
  induction l with
  | nil => intro t h; cases h
  | cons a l ih =>
    intro t h
    cases hl : latestBy l with
    | none =>
      simp only [latestBy, hl] at h
      exact (Option.some.inj h) ▸ List.mem_cons_self a l
    | some m =>
      simp only [latestBy, hl] at h
      by_cases hlt : m.date_active.getD 0 < a.date_active.getD 0
      · rw [if_pos hlt] at h
        exact (Option.some.inj h) ▸ List.mem_cons_self a l
      · rw [if_neg hlt] at h
        exact List.mem_cons_of_mem a (ih (hl.trans (congrArg some (Option.some.inj h))))

theorem latestBy_max : ∀ {l : List TermsAndConditions} {t : TermsAndConditions},
    latestBy l = some t → ∀ x ∈ l, x.date_active.getD 0 ≤ t.date_active.getD 0 := by
  intro l
  induction l with
  | nil => intro t h; cases h
  | cons a l ih =>
    intro t h x hx
    rcases List.mem_cons.mp hx with rfl | hx
    · cases hl : latestBy l with
      | none =>
        simp only [latestBy, hl] at h
        rw [Option.some.inj h]
      | some m =>
        simp only [latestBy, hl] at h
        by_cases hlt : m.date_active.getD 0 < x.date_active.getD 0
        · rw [if_pos hlt] at h; rw [Option.some.inj h]
        · rw [if_neg hlt] at h
          rw [← Option.some.inj h]
          exact le_of_not_lt hlt
    · cases hl : latestBy l with
      | none =>
        cases l with
        | nil => cases hx
        | cons b l2 =>
          exact absurd hl latestBy_ne_none
      | some m =>
        simp only [latestBy, hl] at h
        have hm := ih hl x hx
        by_cases hlt : m.date_active.getD 0 < a.date_active.getD 0
        · rw [if_pos hlt] at h
          rw [← Option.some.inj h]
          exact le_trans hm (le_of_lt hlt)
        · rw [if_neg hlt] at h
          rw [← Option.some.inj h]
          exact hm

/-- C5: on a fresh cache, `get_active(slug)` returns a row of the store with
that slug whose `date_active` is non-null and not after `now` and is maximal
among all qualifying rows of the slug; it returns `None` exactly when no row
qualifies, so it never returns a draft or future-activated document. -/
theorem get_active_latest_correct (ttl : Int) (db : DB) (slug : String)
    (now : Int) :
    (∀ t, (TermsAndConditions.get_active ttl [] db slug now).1 = some t →
      t ∈ db.terms ∧ t.slug = slug ∧ (∃ d, t.date_active = some d ∧ d ≤ now) ∧
      ∀ x ∈ db.terms, x.slug = slug → activeAt now x = true →
        x.date_active.getD 0 ≤ t.date_active.getD 0) ∧
    ((TermsAndConditions.get_active ttl [] db slug now).1 = none ↔
      ∀ x ∈ db.terms, ¬(x.slug = slug ∧ activeAt now x = true)) := by
  constructor
  · intro t ht
    unfold TermsAndConditions.get_active at ht
    rw [cacheGet_nil] at ht
    cases hlb : latestBy (db.terms.filter fun x => activeAt now x && x.slug == slug) with
    | none => simp only [hlb] at ht; cases ht
    | some t' =>
      simp only [hlb] at ht
      have htt : t' = t := Option.some.inj ht
      subst htt
      have hmem := latestBy_mem hlb
      rw [List.mem_filter, Bool.and_eq_true, beq_iff_eq] at hmem
      refine ⟨hmem.1, hmem.2.2, activeAt_iff.mp hmem.2.1, ?_⟩
      intro x hx hxs hxa
      exact latestBy_max hlb x
        (List.mem_filter.mpr ⟨hx, by rw [Bool.and_eq_true, beq_iff_eq]; exact ⟨hxa, hxs⟩⟩)
  · unfold TermsAndConditions.get_active
    rw [cacheGet_nil]
    cases hlb : latestBy (db.terms.filter fun x => activeAt now x && x.slug == slug) with
    | none =>
      simp only [hlb]
      constructor
      · intro _ x hx hpred
        cases hfl : db.terms.filter fun x => activeAt now x && x.slug == slug with
        | nil =>
          have := List.filter_eq_nil_iff.mp hfl x hx
          rw [Bool.and_eq_true, beq_iff_eq] at this
          exact this ⟨hpred.2, hpred.1⟩
        | cons b l2 => rw [hfl] at hlb; exact absurd hlb latestBy_ne_none
      · intro _; trivial
    | some t' =>
      simp only [hlb]
      constructor
      · intro h; cases h
      · intro hall
        have hmem := latestBy_mem hlb
        rw [List.mem_filter, Bool.and_eq_true, beq_iff_eq] at hmem
        exact absurd ⟨hmem.2.2, hmem.2.1⟩ (hall t' hmem.1)

/-- Witness for C5: on the fixture store, `get_active` of the slug with two
versions returns the newer active one. -/
theorem get_active_latest_correct_witness :
    (TermsAndConditions.get_active 30 [] wDb "b" 10).1 = some wSite ∧
    wSite.slug = "b" ∧ (∃ d, wSite.date_active = some d ∧ d ≤ 10) := by
  have h := (get_active_latest_correct 30 wDb "b" 10).1 wSite (by decide)
  exact ⟨by decide, h.2.1, h.2.2.1⟩

theorem wfIds_unique {db : DB} (hwf : db.wfIds) {t1 t2 : TermsAndConditions}
    (h1 : t1 ∈ db.terms) (h2 : t2 ∈ db.terms) (hid : t1.id = t2.id) : t1 = t2 := by
  by_cases heq : t1 = t2
  · exact heq
  · refine absurd hid (List.Pairwise.forall ?_ hwf h1 h2 heq)
    intro x y h he
    exact h he.symm

/-- C6: a record with null `date_accepted` referencing a mandatory policy is
rejected at the (spec-modelled) write boundary with a validation error and
never reaches storage; consequently every stored record on a mandatory policy
keeps a non-null `date_accepted` across validated writes. -/
theorem clean_rejects_unaccepted_mandatory (db : DB)
    (terms : TermsAndConditions) (ut : UserTermsAndConditions) :
    (ut.date_accepted = none → terms.optional = false →
      validatedSave db terms ut = .error .mandatoryTermsNeedDateAccepted) ∧
    (∀ db', validatedSave db terms ut = .ok db' →
      mandatoryAccepted db → db.wfIds → terms ∈ db.terms → ut.terms = terms.id →
      mandatoryAccepted db') := by
  constructor
  · intro hnull hmand
    unfold validatedSave UserTermsAndConditions.clean
    rw [hnull, hmand]
    rfl
  · intro db' hok hinv hwf hterms hid
    unfold validatedSave at hok
    cases hcl : ut.clean terms with
    | error e => rw [hcl] at hok; cases hok
    | ok u0 =>
      rw [hcl] at hok
      have hdb' : { db with userterms := ut :: db.userterms } = db' :=
        Except.ok.inj hok
      subst hdb'
      intro ut' hmem t ht hidm hmand
      rcases List.mem_cons.mp hmem with rfl | hmem'
      · rw [hidm] at hid
        have hteq : t = terms := wfIds_unique hwf ht hterms hid
        rw [hteq] at hmand
        unfold UserTermsAndConditions.clean at hcl
        split at hcl
        · cases hcl
        · next hcond =>
          cases hda : ut'.date_accepted with
          | none => exact absurd (by rw [hda, hmand]; rfl) hcond
          | some d => rfl
      · exact hinv ut' hmem' t ht hidm hmand

/-- Witness for C6: saving a null-`date_accepted` record against the mandatory
fixture row is rejected with the validation error. -/
theorem clean_rejects_unaccepted_mandatory_witness :
    (⟨"u", 1, none, none⟩ : UserTermsAndConditions).date_accepted = none ∧
    wSite.optional = false ∧
    validatedSave wDb wSite ⟨"u", 1, none, none⟩ =
      .error .mandatoryTermsNeedDateAccepted :=
  ⟨rfl, rfl,
    (clean_rejects_unaccepted_mandatory wDb wSite ⟨"u", 1, none, none⟩).1 rfl rfl⟩

/-- C10: a `UserTermsAndConditions` record constructed without an explicit
`date_accepted` defaults the field to the current time — the accepted-now
state, never the null seen-not-accepted state — so it also passes `clean`
against any terms row, mandatory ones included. -/
theorem mkDefault_date_accepted_now (user : String) (terms : Nat)
    (ip : Option String) (now : Int) :
    (UserTermsAndConditions.mkDefault user terms ip now).date_accepted = some now ∧
    (UserTermsAndConditions.mkDefault user terms ip now).date_accepted.isSome = true ∧
    ∀ t : TermsAndConditions,
      (UserTermsAndConditions.mkDefault user terms ip now).clean t = .ok () := by
  refine ⟨rfl, rfl, ?_⟩
  intro t
  simp [UserTermsAndConditions.clean, UserTermsAndConditions.mkDefault]

theorem getOutstanding_exempt (perm : Option String) (ttl : Int) (tf : Bool)
    (c : Cache) (db : DB) (err : Option PyExc) (u : DjangoUser) (skip : Bool)
    (now : Int) (hex : exemptCheck perm u = true) :
    TermsAndConditions.get_active_terms_not_agreed_to perm ttl tf c db err u
      skip now = .ok ([], c) := by
  unfold TermsAndConditions.get_active_terms_not_agreed_to
  rw [hex]
  rfl

theorem getOutstanding_err (perm : Option String) (ttl : Int) (tf : Bool)
    (db : DB) (u : DjangoUser) (skip : Bool) (now : Int) (e : PyExc)
    (hex : exemptCheck perm u = false) :
    TermsAndConditions.get_active_terms_not_agreed_to perm ttl tf [] db (some e)
      u skip now = (if caughtExc e then .ok ([], []) else .error e) := by
  unfold TermsAndConditions.get_active_terms_not_agreed_to
  rw [hex]
  simp [cacheGet_nil]

theorem getOutstanding_miss (perm : Option String) (ttl : Int) (tf : Bool)
    (db : DB) (u : DjangoUser) (skip : Bool) (now : Int)
    (hex : exemptCheck perm u = false) :
    TermsAndConditions.get_active_terms_not_agreed_to perm ttl tf [] db none u
      skip now
      = .ok (TermsAndConditions.notAgreedCompute tf db
          (TermsAndConditions.get_active_terms_list ttl [] db now).1 u skip,
        cacheSet (TermsAndConditions.get_active_terms_list ttl [] db now).2
          (notAgreedKey u skip)
          (.notAgreed (TermsAndConditions.notAgreedCompute tf db
            (TermsAndConditions.get_active_terms_list ttl [] db now).1 u skip))
          (now + ttl)) := by
  unfold TermsAndConditions.get_active_terms_not_agreed_to
  rw [hex]
  simp [cacheGet_nil]

theorem getOutstanding_hit (perm : Option String) (ttl : Int) (tf : Bool)
    (c : Cache) (db : DB) (err : Option PyExc) (u : DjangoUser) (skip : Bool)
    (now : Int) (v : List TermsAndConditions)
    (hex : exemptCheck perm u = false)
    (hc : cacheGet c now (notAgreedKey u skip) = some (.notAgreed v)) :
    TermsAndConditions.get_active_terms_not_agreed_to perm ttl tf c db err u
      skip now = .ok (v, c) := by
  unfold TermsAndConditions.get_active_terms_not_agreed_to
  rw [hex, hc]
  rfl

theorem cacheGet_cacheSet_same (c : Cache) (k : String) (v : CacheVal)
    (exp now : Int) (h : now < exp) :
    cacheGet (cacheSet c k v exp) now k = some v := by
  unfold cacheGet cacheSet
  rw [List.find?_cons_of_pos _ (by simp)]
  simp [entryValAt, h]

/-- C8: for a fixed store state, a fixed `skip_optional` and a fixed
store-error situation, a second resolver call with no intervening write and
within the time-to-live window returns exactly the sequence of the first call
(first call on a fresh cache, second call on the cache the first call left). -/
theorem getOutstanding_idempotent_within_ttl (perm : Option String) (ttl : Int)
    (tf : Bool) (db : DB) (err : Option PyExc) (u : DjangoUser) (skip : Bool)
    (now1 now2 : Int) (h1 : now1 ≤ now2) (h2 : now2 < now1 + ttl) :
    okList (TermsAndConditions.get_active_terms_not_agreed_to perm ttl tf
      (okCache (TermsAndConditions.get_active_terms_not_agreed_to perm ttl tf []
        db err u skip now1)) db err u skip now2) =
    okList (TermsAndConditions.get_active_terms_not_agreed_to perm ttl tf []
      db err u skip now1) := by
  by_cases hex : exemptCheck perm u = true
  · rw [getOutstanding_exempt perm ttl tf [] db err u skip now1 hex]
    simp only [okCache]
    rw [getOutstanding_exempt perm ttl tf [] db err u skip now2 hex]
  · have hexf : exemptCheck perm u = false := by
      rw [Bool.not_eq_true] at hex; exact hex
    cases err with
    | some e =>
      rw [getOutstanding_err perm ttl tf db u skip now1 e hexf]
      by_cases hc : caughtExc e = true
      · rw [if_pos hc]
        simp only [okCache]
        rw [getOutstanding_err perm ttl tf db u skip now2 e hexf, if_pos hc]
      · rw [if_neg hc]
        simp only [okCache]
        rw [getOutstanding_err perm ttl tf db u skip now2 e hexf, if_neg hc]
    | none =>
      rw [getOutstanding_miss perm ttl tf db u skip now1 hexf]
      simp only [okCache]
      rw [getOutstanding_hit perm ttl tf _ db none u skip now2 _ hexf
        (cacheGet_cacheSet_same _ _ _ _ _ h2)]

/-- Witness for C8: two fixture calls ten time units apart inside the
thirty-unit time-to-live return the same sequence. -/
theorem getOutstanding_idempotent_within_ttl_witness :
    (0 : Int) ≤ 10 ∧ (10 : Int) < 0 + 30 ∧
    okList (TermsAndConditions.get_active_terms_not_agreed_to none 30 false
      (okCache (TermsAndConditions.get_active_terms_not_agreed_to none 30 false []
        wDb none wUser false 0)) wDb none wUser false 10) =
    okList (TermsAndConditions.get_active_terms_not_agreed_to none 30 false []
      wDb none wUser false 0) :=
  ⟨by decide, by decide,
    getOutstanding_idempotent_within_ttl none 30 false wDb none wUser false 0 10
      (by decide) (by decide)⟩

theorem dictLookup_nil (k : String) : dictLookup [] k = none := rfl

theorem dictLookup_map_ne (d : List (String × Nat)) (k k' : String) (v : Nat)
    (hne : k' ≠ k) :
    dictLookup (d.map fun p => if p.1 == k then (k, v) else p) k' =
      dictLookup d k' := by
  induction d with
  | nil => rfl
  | cons a d ih =>
    simp only [List.map_cons]
    by_cases ha : a.1 = k
    · have h1 : (if a.1 == k then (k, v) else a) = (k, v) := by simp [ha]
      rw [h1]
      unfold dictLookup at ih ⊢
      rw [List.find?_cons_of_neg _ (by simp only [beq_iff_eq]; exact fun hh => hne hh.symm),
        List.find?_cons_of_neg _ (by simp only [beq_iff_eq]; exact fun hh => hne (hh.symm.trans ha))]
      exact ih
    · have h1 : (if a.1 == k then (k, v) else a) = a := by simp [ha]
      rw [h1]
      unfold dictLookup at ih ⊢
      by_cases hk : a.1 = k'
      · rw [List.find?_cons_of_pos _ (by simp [hk]), List.find?_cons_of_pos _ (by simp [hk])]
      · rw [List.find?_cons_of_neg _ (by simp [hk]), List.find?_cons_of_neg _ (by simp [hk])]
        exact ih

theorem dictLookup_dictInsert (d : List (String × Nat)) (k k' : String) (v : Nat) :
    dictLookup (dictInsert d k v) k' = if k' = k then some v else dictLookup d k' := by
  induction d with
  | nil =>
    unfold dictInsert
    simp only [List.any_nil, Bool.false_eq_true, if_false, List.nil_append]
    by_cases h : k' = k
    · unfold dictLookup
      rw [List.find?_cons_of_pos _ (by simp [h])]
      simp [h]
    · unfold dictLookup
      rw [List.find?_cons_of_neg _ (by simp only [beq_iff_eq]; exact fun hh => h hh.symm)]
      simp [h, dictLookup]
  | cons a d ih =>
    unfold dictInsert at ih ⊢
    by_cases ha : a.1 = k
    · have hany : ((a :: d).any fun p => p.1 == k) = true := by simp [List.any_cons, ha]
      rw [hany]
      simp only [if_true, List.map_cons]
      have h1 : (if a.1 == k then (k, v) else a) = (k, v) := by simp [ha]
      rw [h1]
      by_cases hk : k' = k
      · unfold dictLookup
        rw [List.find?_cons_of_pos _ (by simp [hk])]
        simp [hk]
      · unfold dictLookup
        rw [List.find?_cons_of_neg _ (by simp only [beq_iff_eq]; exact fun hh => hk hh.symm)]
        have hmap := dictLookup_map_ne d k k' v hk
        unfold dictLookup at hmap
        rw [hmap]
        rw [List.find?_cons_of_neg _ (by simp only [beq_iff_eq]; exact fun hh => hk (hh.symm.trans ha))]
        simp [hk]
    · have hany : ((a :: d).any fun p => p.1 == k) = (d.any fun p => p.1 == k) := by
        simp [List.any_cons, ha]
      rw [hany]
      by_cases hd : (d.any fun p => p.1 == k) = true
      · rw [hd] at ih ⊢
        simp only [if_true] at ih ⊢
        simp only [List.map_cons]
        have h1 : (if a.1 == k then (k, v) else a) = a := by simp [ha]
        rw [h1]
        by_cases hk : a.1 = k'
        · unfold dictLookup
          rw [List.find?_cons_of_pos _ (by simp [hk]), List.find?_cons_of_pos _ (by simp [hk])]
          have hne : ¬ k' = k := fun hh => ha (hk.trans hh)
          simp [hne]
        · unfold dictLookup at ih ⊢
          rw [List.find?_cons_of_neg _ (by simp [hk]), List.find?_cons_of_neg _ (by simp [hk])]
          exact ih
      · rw [Bool.not_eq_true] at hd
        rw [hd] at ih ⊢
        simp only [Bool.false_eq_true, if_false] at ih ⊢
        rw [List.cons_append]
        by_cases hk : a.1 = k'
        · unfold dictLookup
          rw [List.find?_cons_of_pos _ (by simp [hk]), List.find?_cons_of_pos _ (by simp [hk])]
          have hne : ¬ k' = k := fun hh => ha (hk.trans hh)
          simp [hne]
        · unfold dictLookup at ih ⊢
          rw [List.find?_cons_of_neg _ (by simp [hk]), List.find?_cons_of_neg _ (by simp [hk])]
          exact ih

theorem foldl_dictInsert_lookup :
    ∀ (q : List TermsAndConditions) (d0 : List (String × Nat)) (k : String),
    dictLookup (q.foldl (fun d t => dictInsert d t.slug t.id) d0) k =
      (match (q.filter fun t => t.slug == k).getLast? with
      | some t => some t.id
      | none => dictLookup d0 k) := by
  intro q
  induction q with
  | nil => intro d0 k; rfl
  | cons t q ih =>
    intro d0 k
    rw [List.foldl_cons]
    rw [ih (dictInsert d0 t.slug t.id) k]
    rw [dictLookup_dictInsert]
    cases hq : (q.filter fun x => x.slug == k).getLast? with
    | some t' =>
      have hne : (q.filter fun x => x.slug == k) ≠ [] := by
        intro hn; rw [hn] at hq; cases hq
      by_cases hts : t.slug = k
      · have : ((t :: q).filter fun x => x.slug == k) = t :: (q.filter fun x => x.slug == k) := by
          rw [List.filter_cons_of_pos (by simp [hts])]
        rw [this]
        cases hfq : (q.filter fun x => x.slug == k) with
        | nil => exact absurd hfq hne
        | cons b l =>
          rw [hfq] at hq
          rw [List.getLast?_cons_cons, hq]
      · have : ((t :: q).filter fun x => x.slug == k) = q.filter fun x => x.slug == k := by
          rw [List.filter_cons_of_neg (by simp [hts])]
        rw [this, hq]
    | none =>
      have hnil : (q.filter fun x => x.slug == k) = [] :=
        List.getLast?_eq_none_iff.mp hq
      simp only [hq]
      by_cases hts : t.slug = k
      · have hft : ((t :: q).filter fun x => x.slug == k) = [t] := by
          rw [List.filter_cons_of_pos (by simp [hts]), hnil]
        rw [hft]
        simp [hts]
      · have hft : ((t :: q).filter fun x => x.slug == k) = [] := by
          rw [List.filter_cons_of_neg (by simp [hts]), hnil]
        rw [hft]
        simp only [List.getLast?_nil]
        have hne : ¬ k = t.slug := fun hh => hts hh.symm
        simp [hne]

theorem dictInsert_keys (d : List (String × Nat)) (k : String) (v : Nat) :
    (dictInsert d k v).map (fun p => p.1) =
      (if d.any (fun p => p.1 == k) then d.map (fun p => p.1)
       else d.map (fun p => p.1) ++ [k]) := by
  unfold dictInsert
  by_cases h : (d.any fun p => p.1 == k) = true
  · rw [h]
    simp only [if_true, List.map_map]
    refine List.map_congr_left ?_
    intro p _
    by_cases hp : p.1 = k
    · simp [hp]
    · simp [hp]
  · rw [Bool.not_eq_true] at h
    rw [h]
    simp

theorem foldl_dictInsert_keys_nodup :
    ∀ (q : List TermsAndConditions) (d0 : List (String × Nat)),
    (d0.map (fun p => p.1)).Nodup →
    ((q.foldl (fun d t => dictInsert d t.slug t.id) d0).map (fun p => p.1)).Nodup := by
  intro q
  induction q with
  | nil => intro d0 h; exact h
  | cons t q ih =>
    intro d0 h
    rw [List.foldl_cons]
    refine ih _ ?_
    rw [dictInsert_keys]
    by_cases ha : (d0.any fun p => p.1 == t.slug) = true
    · rw [ha]; simpa using h
    · rw [Bool.not_eq_true] at ha
      rw [ha]
      simp only [Bool.false_eq_true, if_false]
      rw [List.nodup_append]
      refine ⟨h, List.nodup_singleton _, ?_⟩
      intro x hx hx1
      rw [List.mem_singleton] at hx1
      subst hx1
      rw [List.mem_map] at hx
      obtain ⟨p, hp, hp1⟩ := hx
      have : (d0.any fun p => p.1 == t.slug) = true :=
        List.any_eq_true.mpr ⟨p, hp, by simp [hp1]⟩
      rw [this] at ha
      cases ha

theorem dictLookup_of_mem {d : List (String × Nat)} {p : String × Nat}
    (hnd : (d.map (fun x => x.1)).Nodup) (hp : p ∈ d) :
    dictLookup d p.1 = some p.2 := by
  induction d with
  | nil => cases hp
  | cons a d ih =>
    rw [List.map_cons, List.nodup_cons] at hnd
    rcases List.mem_cons.mp hp with rfl | hp'
    · unfold dictLookup
      rw [List.find?_cons_of_pos _ (by simp)]
      rfl
    · have hne : a.1 ≠ p.1 := by
        intro hh
        exact hnd.1 (hh ▸ List.mem_map.mpr ⟨p, hp', rfl⟩)
      unfold dictLookup at ih ⊢
      rw [List.find?_cons_of_neg _ (by simp only [beq_iff_eq]; exact hne)]
      exact ih hnd.2 hp'

theorem getLast?_pairwise_le :
    ∀ {l : List TermsAndConditions}, l.Pairwise dateLE →
    ∀ {t : TermsAndConditions}, l.getLast? = some t →
    ∀ x ∈ l, x.date_active.getD 0 ≤ t.date_active.getD 0 := by
  intro l
  induction l with
  | nil => intro _ t hl; cases hl
  | cons a l ih =>
    intro hp t hl x hx
    cases l with
    | nil =>
      have hta : t = a := by
        simp only [List.getLast?_singleton] at hl
        exact (Option.some.inj hl).symm
      rcases List.mem_singleton.mp hx with rfl
      rw [hta]
    | cons b l2 =>
      rw [List.getLast?_cons_cons] at hl
      rw [List.pairwise_cons] at hp
      rcases List.mem_cons.mp hx with rfl | hx'
      · have htm : t ∈ b :: l2 := List.mem_of_mem_getLast? hl
        exact hp.1 t htm
      · exact ih hp.2 hl x hx'

theorem get_active_terms_ids_miss (ttl : Int) (db : DB) (now : Int) :
    (TermsAndConditions.get_active_terms_ids ttl [] db now).1 =
      (((((db.terms.filter (activeAt now)).insertionSort dateLE).foldl
        (fun d t => dictInsert d t.slug t.id) []).insertionSort keyLE).map
        fun p => p.2) := by
  unfold TermsAndConditions.get_active_terms_ids
  simp [cacheGet_nil]

theorem get_active_terms_list_miss (ttl : Int) (db : DB) (now : Int) :
    (TermsAndConditions.get_active_terms_list ttl [] db now).1 =
      ((db.terms.filter fun t =>
        (TermsAndConditions.get_active_terms_ids ttl [] db now).1.contains t.id).insertionSort
        slugLE) := by
  unfold TermsAndConditions.get_active_terms_list
  simp [cacheGet_nil]

theorem dict_witness (db : DB) (now : Int) (k : String) (v : Nat)
    (hlk : dictLookup (((db.terms.filter (activeAt now)).insertionSort dateLE).foldl
      (fun d t => dictInsert d t.slug t.id) []) k = some v) :
    ∃ t, t ∈ db.terms ∧ activeAt now t = true ∧ t.slug = k ∧ t.id = v ∧
      ∀ x ∈ db.terms, x.slug = k → activeAt now x = true →
        x.date_active.getD 0 ≤ t.date_active.getD 0 := by
  rw [foldl_dictInsert_lookup] at hlk
  cases hgl : (((db.terms.filter (activeAt now)).insertionSort dateLE).filter
      fun t => t.slug == k).getLast? with
  | none =>
    rw [hgl] at hlk
    simp [dictLookup_nil] at hlk
  | some tw =>
    rw [hgl] at hlk
    simp only at hlk
    have htw : tw.id = v := Option.some.inj hlk
    have htm := List.mem_of_mem_getLast? hgl
    rw [List.mem_filter] at htm
    obtain ⟨htq, hts⟩ := htm
    rw [beq_iff_eq] at hts
    have htdb := (List.mem_insertionSort dateLE).mp htq
    rw [List.mem_filter] at htdb
    refine ⟨tw, htdb.1, htdb.2, hts, htw, ?_⟩
    intro x hx hxs hxa
    have hxq : x ∈ (db.terms.filter (activeAt now)).insertionSort dateLE :=
      (List.mem_insertionSort dateLE).mpr (List.mem_filter.mpr ⟨hx, hxa⟩)
    have hxf : x ∈ ((db.terms.filter (activeAt now)).insertionSort dateLE).filter
        (fun t => t.slug == k) := List.mem_filter.mpr ⟨hxq, by simp [hxs]⟩
    have hpq : ((db.terms.filter (activeAt now)).insertionSort dateLE).Pairwise dateLE :=
      List.sorted_insertionSort dateLE _
    have hpf : (((db.terms.filter (activeAt now)).insertionSort dateLE).filter
        (fun t => t.slug == k)).Pairwise dateLE :=
      List.Pairwise.sublist (List.filter_sublist _) hpq
    exact getLast?_pairwise_le hpf hgl x hxf

theorem ids_lookup (ttl : Int) (db : DB) (now : Int) (v : Nat)
    (hv : v ∈ (TermsAndConditions.get_active_terms_ids ttl [] db now).1) :
    ∃ k, dictLookup (((db.terms.filter (activeAt now)).insertionSort dateLE).foldl
      (fun d t => dictInsert d t.slug t.id) []) k = some v := by
  rw [get_active_terms_ids_miss] at hv
  rw [List.mem_map] at hv
  obtain ⟨p, hp, hpv⟩ := hv
  have hpd := (List.mem_insertionSort keyLE).mp hp
  have hnd : ((((db.terms.filter (activeAt now)).insertionSort dateLE).foldl
      (fun d t => dictInsert d t.slug t.id) []).map fun p => p.1).Nodup :=
    foldl_dictInsert_keys_nodup _ [] (by simp)
  exact ⟨p.1, hpv ▸ dictLookup_of_mem hnd hpd⟩

theorem countP_id_eq_one : ∀ {l : List TermsAndConditions},
    (l.Pairwise fun a b => a.id ≠ b.id) → ∀ {t0 : TermsAndConditions}, t0 ∈ l →
    l.countP (fun x => x.id == t0.id) = 1 := by
  intro l
  induction l with
  | nil => intro _ t0 ht; cases ht
  | cons a l ih =>
    intro hp t0 ht
    rw [List.pairwise_cons] at hp
    rw [List.countP_cons]
    rcases List.mem_cons.mp ht with rfl | ht'
    · have hz : l.countP (fun x => x.id == t0.id) = 0 := by
        rw [List.countP_eq_zero]
        intro x hx
        simp only [beq_iff_eq]
        exact fun hh => hp.1 x hx hh.symm
      rw [hz]
      simp
    · have h1 := ih hp.2 ht'
      rw [h1]
      have : ¬ (a.id == t0.id) = true := by
        simp only [beq_iff_eq]
        exact hp.1 t0 ht'
      simp [this]

theorem wfIds_nodup {db : DB} (hwf : db.wfIds) : db.terms.Nodup := by
  refine hwf.imp ?_
  intro a b h he
  exact h (by rw [he])

/-- C9: `get_active_terms_list` returns exactly one document per identifier
of `get_active_terms_ids` — every returned row's id is in the id list, each id
of the id list matches exactly one returned row, each returned row is its
slug's active document (active now, with the greatest `date_active` among the
active rows of its slug) — and the returned sequence is sorted by slug
strictly ascending, on a fresh cache and a store with distinct primary keys. -/
theorem get_active_terms_list_per_slug (ttl : Int) (db : DB) (now : Int) (hwf : db.wfIds) :
    (∀ t ∈ (TermsAndConditions.get_active_terms_list ttl [] db now).1,
      t.id ∈ (TermsAndConditions.get_active_terms_ids ttl [] db now).1 ∧
      activeAt now t = true ∧
      ∀ x ∈ db.terms, x.slug = t.slug → activeAt now x = true →
        x.date_active.getD 0 ≤ t.date_active.getD 0) ∧
    (∀ v ∈ (TermsAndConditions.get_active_terms_ids ttl [] db now).1,
      ((TermsAndConditions.get_active_terms_list ttl [] db now).1.filter
        fun t => t.id == v).length = 1) ∧
    (TermsAndConditions.get_active_terms_list ttl [] db now).1.Pairwise
      (fun a b => a.slug.data < b.slug.data) := by
  have hmem : ∀ t, t ∈ (TermsAndConditions.get_active_terms_list ttl [] db now).1 ↔
      t ∈ db.terms ∧ t.id ∈ (TermsAndConditions.get_active_terms_ids ttl [] db now).1 := by
    intro t
    rw [get_active_terms_list_miss, List.mem_insertionSort, List.mem_filter]
    constructor
    · rintro ⟨h1, h2⟩
      exact ⟨h1, List.mem_of_elem_eq_true h2⟩
    · rintro ⟨h1, h2⟩
      exact ⟨h1, List.elem_eq_true_of_mem h2⟩
  have hslot : ∀ t, t ∈ db.terms →
      t.id ∈ (TermsAndConditions.get_active_terms_ids ttl [] db now).1 →
      dictLookup (((db.terms.filter (activeAt now)).insertionSort dateLE).foldl
        (fun d t => dictInsert d t.slug t.id) []) t.slug = some t.id ∧
      activeAt now t = true ∧
      ∀ x ∈ db.terms, x.slug = t.slug → activeAt now x = true →
        x.date_active.getD 0 ≤ t.date_active.getD 0 := by
    intro t htdb hid
    obtain ⟨k, hk⟩ := ids_lookup ttl db now t.id hid
    obtain ⟨tw, htw1, htw2, htw3, htw4, htw5⟩ := dict_witness db now k t.id hk
    have hteq : tw = t := wfIds_unique hwf htw1 htdb htw4
    subst hteq
    refine ⟨by rw [htw3]; exact hk, htw2, ?_⟩
    intro x hx hxs hxa
    exact htw5 x hx (by rw [hxs, htw3]) hxa
  refine ⟨?_, ?_, ?_⟩
  · intro t ht
    have h1 := (hmem t).mp ht
    have h2 := hslot t h1.1 h1.2
    exact ⟨h1.2, h2.2.1, h2.2.2⟩
  · intro v hv
    obtain ⟨k, hk⟩ := ids_lookup ttl db now v hv
    obtain ⟨tw, htw1, htw2, htw3, htw4, htw5⟩ := dict_witness db now k v hk
    rw [← List.countP_eq_length_filter]
    rw [get_active_terms_list_miss]
    rw [List.Perm.countP_eq _ (List.perm_insertionSort slugLE _)]
    rw [List.countP_filter]
    have hcongr : ∀ x ∈ db.terms,
        ((x.id == v) &&
          (TermsAndConditions.get_active_terms_ids ttl [] db now).1.contains x.id) = true ↔
        (x.id == tw.id) = true := by
      intro x hx
      constructor
      · intro hb
        rw [Bool.and_eq_true] at hb
        have h1 : x.id = v := by
          have := hb.1
          rwa [beq_iff_eq] at this
        rw [beq_iff_eq, h1, htw4]
      · intro hb
        rw [beq_iff_eq, htw4] at hb
        rw [Bool.and_eq_true]
        constructor
        · rw [beq_iff_eq]
          exact hb
        · rw [hb]
          exact List.elem_eq_true_of_mem hv
    rw [List.countP_congr hcongr]
    exact countP_id_eq_one hwf htw1
  · have hsorted : (TermsAndConditions.get_active_terms_list ttl [] db now).1.Pairwise
        slugLE := by
      rw [get_active_terms_list_miss]
      exact List.sorted_insertionSort slugLE _
    have hnd : (TermsAndConditions.get_active_terms_list ttl [] db now).1.Nodup := by
      rw [get_active_terms_list_miss]
      exact (List.perm_insertionSort slugLE _).symm.nodup ((wfIds_nodup hwf).filter _)
    refine (hsorted.and hnd).imp_of_mem ?_
    intro a b ha hb hab
    obtain ⟨hle, hne⟩ := hab
    have hle' : a.slug.data ≤ b.slug.data := hle
    rcases lt_or_eq_of_le hle' with hlt | heq
    · exact hlt
    · exfalso
      have hseq : a.slug = b.slug := String.ext heq
      have ha' := (hmem a).mp ha
      have hb' := (hmem b).mp hb
      have hsa := (hslot a ha'.1 ha'.2).1
      have hsb := (hslot b hb'.1 hb'.2).1
      rw [hseq] at hsa
      rw [hsa] at hsb
      have hid : a.id = b.id := Option.some.inj hsb
      exact hne (wfIds_unique hwf ha'.1 hb'.1 hid)


/-- Witness for C9: on the fixture store the returned active list is sorted by
slug strictly ascending. -/
theorem get_active_terms_list_per_slug_witness :
    wDb.wfIds ∧
    (TermsAndConditions.get_active_terms_list 30 [] wDb 10).1.Pairwise
      (fun a b => a.slug.data < b.slug.data) :=
  ⟨by unfold DB.wfIds; decide,
    (get_active_terms_list_per_slug 30 wDb 10 (by unfold DB.wfIds; decide)).2.2⟩
